import Mathlib

/-!
Verification of the traversal and membership-aggregation engine of the
clk gitlab recipe (src/python/gitlab.py) against its specification.

The remote GitLab data reachable from a root group is modelled as a rose
tree: a group carries its own attributes, its member listings, its directly
owned projects (already resolved to full project objects, mirroring the
re-fetch-by-id the source performs on every summary object of a listing)
and its direct subgroups.  Generators of the source become functions
returning lists; the printed output of the member-listing commands becomes
structured section values; the `click` error paths become `Except` values.
-/

namespace ClkGitlab

/-- Member: a gitlab user as returned by a members listing (id, display
name, username). -/
structure Member where
  id : Nat
  name : String
  username : String
deriving Repr, DecidableEq

/-- Project: a full project object as returned by `api.projects.get`,
with its two member listings (`members.list` and `members.all(all=True)`)
already resolved as the remote server would serve them, in server order. -/
structure Project where
  id : Nat
  name : String
  web_url : String
  explicit_members : List Member
  all_members : List Member
deriving Repr, DecidableEq

/-- Group: a full group object as returned by `api.groups.get`, carrying
its member listings, its directly owned projects and its direct subgroups
in server listing order.  The tree is the unchanged backing data set of
one traversal. -/
inductive Group where
  | mk (id : Nat) (name : String) (web_url : String)
      (explicit_members : List Member) (all_members : List Member)
      (projects : List Project) (subgroups : List Group)

def Group.id : Group → Nat
  | .mk i _ _ _ _ _ _ => i

def Group.name : Group → String
  | .mk _ n _ _ _ _ _ => n

def Group.web_url : Group → String
  | .mk _ _ w _ _ _ _ => w

def Group.explicit_members : Group → List Member
  | .mk _ _ _ em _ _ _ => em

def Group.all_members : Group → List Member
  | .mk _ _ _ _ am _ _ => am

def Group.projects : Group → List Project
  | .mk _ _ _ _ _ ps _ => ps

def Group.subgroups : Group → List Group
  | .mk _ _ _ _ _ _ s => s

mutual
def Group.beq : Group → Group → Bool
  | .mk i n w em am ps subs, .mk i' n' w' em' am' ps' subs' =>
    i == i' && n == n' && w == w' && em == em' && am == am' && ps == ps' &&
      Group.beqList subs subs'
def Group.beqList : List Group → List Group → Bool
  | [], [] => true
  | g :: gs, h :: hs => Group.beq g h && Group.beqList gs hs
  | _, _ => false
end

mutual
def Group.beq_eq : ∀ a b : Group, Group.beq a b = true ↔ a = b
  | .mk i n w em am ps subs, .mk i' n' w' em' am' ps' subs' => by
    simp only [Group.beq, Bool.and_eq_true, beq_iff_eq, Group.beqList_eq subs subs',
      Group.mk.injEq]
    tauto
def Group.beqList_eq : ∀ as bs : List Group, Group.beqList as bs = true ↔ as = bs
  | [], [] => by simp [Group.beqList]
  | g :: gs, h :: hs => by
    simp only [Group.beqList, Bool.and_eq_true, Group.beq_eq g h, Group.beqList_eq gs hs,
      List.cons.injEq]
  | [], _ :: _ => by simp [Group.beqList]
  | _ :: _, [] => by simp [Group.beqList]
end

instance : DecidableEq Group := fun a b => decidable_of_iff _ (Group.beq_eq a b)

mutual
/-- Number of group nodes of the tree (the root included); also serves as
a termination measure for the traversals. -/
def count_groups : Group → Nat
  | .mk _ _ _ _ _ _ subs => 1 + count_groups_aux subs
def count_groups_aux : List Group → Nat
  | [] => 0
  | g :: gs => count_groups g + count_groups_aux gs
end

mutual
/-- Number of projects directly owned across all group nodes of the tree. -/
def count_projects : Group → Nat
  | .mk _ _ _ _ _ ps subs => ps.length + count_projects_aux subs
def count_projects_aux : List Group → Nat
  | [] => 0
  | g :: gs => count_projects g + count_projects_aux gs
end

mutual
/-- walk_subgroups (gitlab.py lines 44-48): yield the group itself, then,
for each direct subgroup in listing order, recursively yield that
subgroup's own expansion (the source re-fetches each subgroup summary by
id; in the tree model the full node is already at hand). -/
def walk_subgroups : Group → List Group
  | .mk i n w em am ps subs => .mk i n w em am ps subs :: walk_subgroups_aux subs
def walk_subgroups_aux : List Group → List Group
  | [] => []
  | g :: gs => walk_subgroups g ++ walk_subgroups_aux gs
end

/-- walk_projects (gitlab.py lines 51-54): for every group of
walk_subgroups, yield each directly owned project (re-fetched by id in the
source), never the group itself. -/
def walk_projects (g : Group) : List Project :=
  (walk_subgroups g).flatMap (fun h => h.projects)

/-- Item: one element of the interleaved walk — either a group node or a
project node. -/
inductive Item where
  | group : Group → Item
  | project : Project → Item
deriving DecidableEq

def Item.id : Item → Nat
  | .group g => g.id
  | .project p => p.id

def Item.name : Item → String
  | .group g => g.name
  | .project p => p.name

def Item.web_url : Item → String
  | .group g => g.web_url
  | .project p => p.web_url

def Item.explicit_members : Item → List Member
  | .group g => g.explicit_members
  | .project p => p.explicit_members

def Item.all_members : Item → List Member
  | .group g => g.all_members
  | .project p => p.all_members

/-- Block contributed by one group of walk_subgroups to the interleaved
walk: the group node itself, then its directly owned projects. -/
def gp_block (h : Group) : List Item :=
  Item.group h :: h.projects.map Item.project

/-- walk_group_and_projects (gitlab.py lines 57-61): for every group in
walk_subgroups, yield the group node itself, then each of its directly
owned projects. -/
def walk_group_and_projects (g : Group) : List Item :=
  (walk_subgroups g).flatMap gp_block

/-- Group part of an item, if any. -/
def Item.groupPart : Item → Option Group
  | .group g => some g
  | .project _ => none

/-- Project part of an item, if any. -/
def Item.projectPart : Item → Option Project
  | .group _ => none
  | .project p => some p

/-- Position of a node in the tree: the list of child indices leading from
the root to the node ([] is the root itself). -/
def nodeAt : Group → List Nat → Option Group
  | g, [] => some g
  | g, k :: p =>
    match g.subgroups[k]? with
    | some s => nodeAt s p
    | none => none

mutual
/-- All root-to-node positions of the tree, listed in the pre-order,
depth-first order in which a pre-order traversal reaches them. -/
def nodePaths : Group → List (List Nat)
  | .mk _ _ _ _ _ _ subs => [] :: nodePathsAux 0 subs
def nodePathsAux : Nat → List Group → List (List Nat)
  | _, [] => []
  | k, s :: rest => (nodePaths s).map (fun p => k :: p) ++ nodePathsAux (k + 1) rest
end

/-- Lexicographic code-point comparison of character lists, matching the
string comparison python's `sorted` performs on str keys. -/
def charListLe : List Char → List Char → Bool
  | [], _ => true
  | _ :: _, [] => false
  | a :: as, b :: bs =>
    if a.toNat < b.toNat then true
    else if b.toNat < a.toNat then false
    else charListLe as bs

/-- String comparison by code points, as python compares str values. -/
def strLe (a b : String) : Bool := charListLe a.data b.data

/-- Stable insertion of one element into a sorted list: the new element
goes in front of the first existing element it compares le to, so earlier
elements stay in front of later equal ones. -/
def insertSorted {α : Type} (le : α → α → Bool) (x : α) : List α → List α
  | [] => [x]
  | y :: ys => if le x y then x :: y :: ys else y :: insertSorted le x ys

/-- Stable sort, the ordering contract of python's `sorted`: ascending by
the comparison, equal elements in original order. -/
def insertionSort {α : Type} (le : α → α → Bool) : List α → List α
  | [] => []
  | x :: xs => insertSorted le x (insertionSort le xs)

/-- sort_members (gitlab.py lines 84-85): sort a member listing by display
name (python's `sorted` is a stable sort). -/
def sort_members (members : List Member) : List Member :=
  insertionSort (fun a b => strLe a.name b.name) members

/-- Row of a member table as printed by `tp.echo(user.id, user.name)`. -/
def member_row (m : Member) : Nat × String := (m.id, m.name)

/-- Explicit-members half of one printed section: either a (possibly
empty) table of rows, or the distinct "### No explicit members" marker. -/
inductive ExplicitPart where
  | table : List (Nat × String) → ExplicitPart
  | noExplicitMembersMarker : ExplicitPart
deriving Repr, DecidableEq

/-- One printed section of the member-listing commands: the
"## Project: {id}: {name}" header data, the explicit-members part, and
the implicit-members table (absent under --only-explicit). -/
structure MemberSection where
  header_id : Nat
  header_name : String
  explicitPart : ExplicitPart
  implicitPart : Option (List (Nat × String))
deriving Repr, DecidableEq

/-- Rows carried by the explicit part of a section (a marker carries no
rows). -/
def explicit_rows : ExplicitPart → List (Nat × String)
  | .table rows => rows
  | .noExplicitMembersMarker => []

/-- Section printed by walk_members (gitlab.py lines 92-108) for one item
of the walk: explicit members are sorted by display name; an empty
explicit listing prints the marker instead of a table; implicit members
(members.all, sorted) are printed unless --only-explicit. -/
def walk_members_section (only_explicit : Bool) (it : Item) : MemberSection :=
  { header_id := it.id
    header_name := it.name
    explicitPart :=
      if (sort_members it.explicit_members).isEmpty then ExplicitPart.noExplicitMembersMarker
      else ExplicitPart.table ((sort_members it.explicit_members).map member_row)
    implicitPart :=
      if only_explicit then none
      else some ((sort_members it.all_members).map member_row) }

/-- walk_members (gitlab.py lines 92-108): one section per item of
walk_group_and_projects — the loop variable ranges over group nodes and
project nodes alike, and `.members` is fetched on each. -/
def walk_members (g : Group) (only_explicit : Bool) : List MemberSection :=
  (walk_group_and_projects g).map (walk_members_section only_explicit)

/-- Section printed by walk_project_members (gitlab.py lines 140-152) for
one project: the explicit table is always printed, unsorted, with no
empty-listing marker; the implicit table, also unsorted, unless
--only-explicit. -/
def walk_project_members_section (only_explicit : Bool) (p : Project) : MemberSection :=
  { header_id := p.id
    header_name := p.name
    explicitPart := ExplicitPart.table (p.explicit_members.map member_row)
    implicitPart :=
      if only_explicit then none
      else some (p.all_members.map member_row) }

/-- walk_project_members (gitlab.py lines 136-152): one section per
project of walk_projects. -/
def walk_project_members (g : Group) (only_explicit : Bool) : List MemberSection :=
  (walk_projects g).map (walk_project_members_section only_explicit)

/-- Key under which walk_project_per_member accumulates a member:
f-string "{member.name} ({member.username})" (gitlab.py line 128). -/
def member_key (m : Member) : String := m.name ++ " (" ++ m.username ++ ")"

/-- Accumulation pass of walk_project_per_member (gitlab.py lines
125-128): for every item of walk_group_and_projects (the loop variable
ranges over groups and projects alike) and every member of the item's
explicit listing, one (key, item) entry, in walk order. -/
def member_entries (g : Group) : List (String × Item) :=
  (walk_group_and_projects g).flatMap
    (fun it => it.explicit_members.map (fun m => (member_key m, it)))

/-- Value accumulated under one key by the defaultdict: the items whose
explicit listing produced that key, in append (walk) order. -/
def member_index (g : Group) (k : String) : List Item :=
  ((member_entries g).filter (fun e => e.1 == k)).map Prod.snd

/-- Distinct keys of the accumulated dict, sorted as
`sorted(project_per_member.items())` orders them. -/
def member_keys (g : Group) : List String :=
  insertionSort strLe (((member_entries g).map Prod.fst).dedup)

/-- Rows printed under one member key (gitlab.py lines 131-133): the
accumulated items sorted by name (python's stable `sorted` with
`key=lambda group: group.name`), each echoing the indented name and the
web_url with the group-members page suffix appended — the field the
command declares as `members_web_url`. -/
def member_index_rows (g : Group) (k : String) : List (String × String) :=
  (insertionSort (fun a b => strLe a.name b.name) (member_index g k)).map
    (fun it => ("  " ++ it.name, it.web_url ++ "/-/group_members"))

/-- walk_project_per_member (gitlab.py lines 111-133): after the full
walk, one row group per distinct member key, keys sorted, each listing
its accumulated items sorted by name. -/
def walk_project_per_member (g : Group) : List (String × List (String × String)) :=
  (member_keys g).map (fun k => (k, member_index_rows g k))

/-- Job: one entry of `project.jobs.list(scope=["success"])`'s backing
collection, with its status, and its artifacts archive content. -/
structure Job where
  name : String
  status : String
  artifacts : List Nat
deriving Repr, DecidableEq

/-- Error taxonomy of the command layer. -/
inductive GitlabError where
  | notFound : GitlabError
deriving Repr, DecidableEq

/-- File written by the command layer: target path and content. -/
structure FileWrite where
  path : String
  bytes : List Nat
deriving Repr, DecidableEq

/-- Server-side scope filter of `project.jobs.list(scope=["success"])`. -/
def successful_jobs (jobs : List Job) : List Job :=
  jobs.filter (fun j => j.status == "success")

/-- download_artifacts (gitlab.py lines 172-178): search the successful
jobs of the project for the first one with the requested name; a lookup
that matches no entry fails at the point of search, before
`Path("artifacts.zip").write_bytes` runs, so the list of file writes
performed stays empty. -/
def download_artifacts (jobs : List Job) (job_name : String) :
    Except GitlabError Unit × List FileWrite :=
  match (successful_jobs jobs).find? (fun j => j.name == job_name) with
  | none => (Except.error GitlabError.notFound, [])
  | some job => (Except.ok (), [⟨"artifacts.zip", job.artifacts⟩])

/-- Error taxonomy of the CLI boundary. -/
inductive CommandError where
  | usage : String → CommandError
  | notFound : CommandError
deriving Repr, DecidableEq

/-- group callback (gitlab.py lines 75-81), which click runs before any
subcommand of the `group` command group: a missing --group-id raises
UsageError before `GitlabGroupConfig` is built, so the group fetch of
`GitlabGroupConfig.__init__` (the first network call of any traversal)
never happens; the second component counts the fetches performed. -/
def group_command (fetchGroup : String → Option Group) (group_id : Option String) :
    Except CommandError Group × Nat :=
  match group_id with
  | none =>
    (Except.error (CommandError.usage
      "You must provide a group id, run the groups command to find one"), 0)
  | some gid =>
    match fetchGroup gid with
    | some g => (Except.ok g, 1)
    | none => (Except.error CommandError.notFound, 1)

/-- Pending work of a suspended walk_subgroups generator: the nodes whose
expansions remain to be yielded, front first.  A fresh invocation of the
generator starts from the one-element stack [root]; no cursor state is
shared with any earlier invocation. -/
def runGen : List Group → List Group
  | [] => []
  | g :: rest => g :: runGen (g.subgroups ++ rest)
termination_by s => count_groups_aux s
decreasing_by
  have happ : ∀ a b : List Group,
      count_groups_aux (a ++ b) = count_groups_aux a + count_groups_aux b := by
    intro a b
    induction a with
    | nil => simp [count_groups_aux]
    | cons x xs ih => simp only [List.cons_append, List.append_eq, count_groups_aux, ih]; omega
  rcases g with ⟨i, n, w, em, am, ps, subs⟩
  simp only [Group.subgroups, count_groups_aux, count_groups, happ]
  omega

/-- Pending work of a suspended walk_projects or walk_group_and_projects
generator: either a group node whose expansion remains to be produced, or
a project node not yet yielded. -/
inductive Entry where
  | grp : Group → Entry
  | prj : Project → Entry

/-- Weight of one pending entry, for termination of the generator runs. -/
def Entry.weight : Entry → Nat
  | .grp g => count_groups g + count_projects g
  | .prj _ => 1

/-- Total weight of a generator stack. -/
def entry_stack_weight : List Entry → Nat
  | [] => 0
  | e :: es => e.weight + entry_stack_weight es

/-- Run of a fresh walk_group_and_projects generator from its pending
stack: a group entry yields its node then schedules its projects followed
by its subgroups; a project entry yields its node. -/
def runGenGP : List Entry → List Item
  | [] => []
  | .prj p :: rest => Item.project p :: runGenGP rest
  | .grp g :: rest =>
    Item.group g :: runGenGP (g.projects.map Entry.prj ++ g.subgroups.map Entry.grp ++ rest)
termination_by s => entry_stack_weight s
decreasing_by
  · simp only [entry_stack_weight, Entry.weight]
    omega
  · have happ : ∀ a b : List Entry,
        entry_stack_weight (a ++ b) = entry_stack_weight a + entry_stack_weight b := by
      intro a b
      induction a with
      | nil => simp [entry_stack_weight]
      | cons x xs ih => simp only [List.cons_append, List.append_eq, entry_stack_weight, ih]
                        omega
    have hprj : ∀ ps : List Project,
        entry_stack_weight (ps.map Entry.prj) = ps.length := by
      intro ps
      induction ps with
      | nil => simp [entry_stack_weight]
      | cons x xs ih => simp only [List.map_cons, entry_stack_weight, Entry.weight, ih,
          List.length_cons]; omega
    have hgrp : ∀ l : List Group,
        entry_stack_weight (l.map Entry.grp) = count_groups_aux l + count_projects_aux l := by
      intro l
      induction l with
      | nil => simp [entry_stack_weight, count_groups_aux, count_projects_aux]
      | cons x xs ih => simp only [List.map_cons, entry_stack_weight, Entry.weight, ih,
          count_groups_aux, count_projects_aux]; omega
    rcases g with ⟨i, n, w, em, am, ps, subs⟩
    simp only [Group.subgroups, Group.projects, entry_stack_weight, Entry.weight,
      count_groups, count_projects, happ, hprj, hgrp]
    omega

/-- Example member Alice. -/
def mAlice : Member := ⟨1, "Alice", "alice"⟩

/-- Example member Bob. -/
def mBob : Member := ⟨2, "Bob", "bob"⟩

/-- Example member Carol. -/
def mCarol : Member := ⟨3, "Carol", "carol"⟩

/-- Example member with display name "a", listed after "b" by the server. -/
def mMemA : Member := ⟨4, "a", "user_a"⟩

/-- Example member with display name "b", listed before "a" by the server. -/
def mMemB : Member := ⟨5, "b", "user_b"⟩

/-- Example project P1 with explicit members Alice and Bob. -/
def pOne : Project := ⟨101, "P1", "https://ex/P1", [mAlice, mBob], [mAlice, mBob]⟩

/-- Example project P2 with explicit member Bob only. -/
def pTwo : Project := ⟨102, "P2", "https://ex/P2", [mBob], [mBob]⟩

/-- Example project with zero explicit members and one inherited member. -/
def pEmpty : Project := ⟨31, "P30", "https://ex/P30", [], [mAlice]⟩

/-- Example project whose explicit listing arrives unsorted: display name
"b" before display name "a". -/
def pUnsorted : Project := ⟨61, "P60", "https://ex/P60", [mMemB, mMemA], [mMemB, mMemA]⟩

/-- Example tree for the member-centric index: one group owning projects
P1 and P2. -/
def gC2 : Group := .mk 10 "G" "https://ex/G" [] [] [pOne, pTwo] []

/-- Example tree with a single project that has no explicit members. -/
def gC3 : Group := .mk 30 "G3" "https://ex/G3" [] [] [pEmpty] []

/-- Example tree whose root group itself has an explicit member Carol and
owns no project at all. -/
def gC4 : Group := .mk 40 "G4" "https://ex/G4" [mCarol] [mCarol] [] []

/-- Example tree with a single project whose member listing is unsorted. -/
def gC6 : Group := .mk 60 "G6" "https://ex/G6" [] [] [pUnsorted] []

/-- Example leaf subgroup of the demo tree. -/
def gDemoLeaf : Group := .mk 3 "leaf" "https://ex/leaf" [] [] [] []

/-- Example child group of the demo tree, owning one project and the leaf
subgroup. -/
def gDemoChild : Group := .mk 2 "child" "https://ex/child" [] [] [pEmpty] [gDemoLeaf]

/-- Example second, childless child group of the demo tree. -/
def gDemoChild2 : Group := .mk 4 "child2" "https://ex/child2" [] [] [] []

/-- Example two-level tree: a root owning two projects, a child group
owning one project and one leaf subgroup, and a second childless child. -/
def gDemo : Group :=
  .mk 1 "root" "https://ex/root" [] [] [pOne, pTwo] [gDemoChild, gDemoChild2]

/-- Run of a fresh walk_projects generator from its pending stack: as
runGenGP, but group entries are expanded without being yielded. -/
def runGenP : List Entry → List Project
  | [] => []
  | .prj p :: rest => p :: runGenP rest
  | .grp g :: rest =>
    runGenP (g.projects.map Entry.prj ++ g.subgroups.map Entry.grp ++ rest)
termination_by s => entry_stack_weight s
decreasing_by
  · simp only [entry_stack_weight, Entry.weight]
    omega
  · have happ : ∀ a b : List Entry,
        entry_stack_weight (a ++ b) = entry_stack_weight a + entry_stack_weight b := by
      intro a b
      induction a with
      | nil => simp [entry_stack_weight]
      | cons x xs ih => simp only [List.cons_append, List.append_eq, entry_stack_weight, ih]
                        omega
    have hprj : ∀ ps : List Project,
        entry_stack_weight (ps.map Entry.prj) = ps.length := by
      intro ps
      induction ps with
      | nil => simp [entry_stack_weight]
      | cons x xs ih => simp only [List.map_cons, entry_stack_weight, Entry.weight, ih,
          List.length_cons]; omega
    have hgrp : ∀ l : List Group,
        entry_stack_weight (l.map Entry.grp) = count_groups_aux l + count_projects_aux l := by
      intro l
      induction l with
      | nil => simp [entry_stack_weight, count_groups_aux, count_projects_aux]
      | cons x xs ih => simp only [List.map_cons, entry_stack_weight, Entry.weight, ih,
          count_groups_aux, count_projects_aux]; omega
    rcases g with ⟨i, n, w, em, am, ps, subs⟩
    simp only [Group.subgroups, Group.projects, entry_stack_weight, Entry.weight,
      count_groups, count_projects, happ, hprj, hgrp]
    omega

/-- Sequence a suspended walk_group_and_projects generator still owes for
one pending entry. -/
def expandGP : Entry → List Item
  | .grp g => walk_group_and_projects g
  | .prj p => [Item.project p]

/-- Sequence a suspended walk_projects generator still owes for one
pending entry. -/
def expandP : Entry → List Project
  | .grp g => walk_projects g
  | .prj p => [p]

/-! ## Traversal lemmas -/

theorem walk_subgroups_aux_eq (l : List Group) :
    walk_subgroups_aux l = l.flatMap walk_subgroups := by
  induction l with
  | nil => rfl
  | cons g gs ih => simp [walk_subgroups_aux, ih]

theorem walk_subgroups_cons (i : Nat) (n w : String) (em am : List Member)
    (ps : List Project) (subs : List Group) :
    walk_subgroups (Group.mk i n w em am ps subs) =
      Group.mk i n w em am ps subs :: subs.flatMap walk_subgroups := by
  rw [walk_subgroups, walk_subgroups_aux_eq]

theorem Group.recMem {P : Group → Prop}
    (ind : ∀ i n w em am ps subs, (∀ g ∈ subs, P g) → P (Group.mk i n w em am ps subs)) :
    ∀ g, P g
  | .mk i n w em am ps subs => ind i n w em am ps subs (fun g hg => Group.recMem ind g)
termination_by g => count_groups g
decreasing_by
  have hle : ∀ (l : List Group) (x : Group), x ∈ l → count_groups x ≤ count_groups_aux l := by
    intro l
    induction l with
    | nil => intro x hx; cases hx
    | cons a as ih =>
      intro x hx
      rcases List.mem_cons.mp hx with h1 | h1
      · subst h1; simp only [count_groups_aux]; omega
      · have := ih x h1; simp only [count_groups_aux]; omega
  have := hle subs g hg
  simp only [count_groups]
  omega

theorem walk_subgroups_head (g : Group) : (walk_subgroups g).head? = some g := by
  rcases g with ⟨i, n, w, em, am, ps, subs⟩
  rw [walk_subgroups_cons]
  rfl

theorem walk_subgroups_length (g : Group) :
    (walk_subgroups g).length = count_groups g := by
  induction g using Group.recMem with
  | ind i n w em am ps subs ih =>
    rw [walk_subgroups_cons]
    simp only [List.length_cons, List.length_flatMap, count_groups]
    have haux : ∀ l : List Group, (∀ x ∈ l, (walk_subgroups x).length = count_groups x) →
        (l.map (List.length ∘ walk_subgroups)).sum = count_groups_aux l := by
      intro l
      induction l with
      | nil => intro _; simp [count_groups_aux]
      | cons a as ihl =>
        intro hx
        simp only [List.map_cons, List.sum_cons, count_groups_aux, Function.comp_apply,
          hx a (List.mem_cons_self a as), ihl (fun x hxx => hx x (List.mem_cons_of_mem a hxx))]
    rw [haux subs ih]
    omega

theorem walk_subgroups_projects_sum (g : Group) :
    ((walk_subgroups g).map (fun h => h.projects.length)).sum = count_projects g := by
  induction g using Group.recMem with
  | ind i n w em am ps subs ih =>
    rw [walk_subgroups_cons]
    simp only [List.map_cons, List.sum_cons]
    have haux : ∀ l : List Group,
        (∀ x ∈ l, ((walk_subgroups x).map (fun h => h.projects.length)).sum = count_projects x) →
        ((l.flatMap walk_subgroups).map (fun h => h.projects.length)).sum
          = count_projects_aux l := by
      intro l
      induction l with
      | nil => intro _; simp [count_projects_aux]
      | cons a as ihl =>
        intro hx
        simp only [List.flatMap_cons, List.map_append, List.sum_append, count_projects_aux,
          hx a (List.mem_cons_self a as), ihl (fun x hxx => hx x (List.mem_cons_of_mem a hxx))]
    rw [haux subs ih]
    simp only [Group.projects, count_projects]

theorem walk_group_and_projects_length (g : Group) :
    (walk_group_and_projects g).length = count_groups g + count_projects g := by
  rw [walk_group_and_projects, List.length_flatMap]
  have h1 : (List.length ∘ gp_block) = fun h => h.projects.length + 1 := by
    funext h
    simp [gp_block]
  rw [h1]
  have h2 : ∀ L : List Group, (L.map (fun h => h.projects.length + 1)).sum
      = (L.map (fun h => h.projects.length)).sum + L.length := by
    intro L
    induction L with
    | nil => simp
    | cons a as ih => simp only [List.map_cons, List.sum_cons, List.length_cons, ih]; omega
  rw [h2, walk_subgroups_projects_sum, walk_subgroups_length]
  omega

theorem walk_projects_length (g : Group) :
    (walk_projects g).length = count_projects g := by
  rw [walk_projects, List.length_flatMap]
  have h1 : (List.length ∘ fun h : Group => h.projects) = fun h => h.projects.length := by
    funext h
    rfl
  rw [h1, walk_subgroups_projects_sum]

/-! ## Interleaving structure of walk_group_and_projects -/

theorem gp_chunk_split (ps : List Project) :
    ∀ (tail pre post : List Item) (h : Group),
      ps.map Item.project ++ tail = pre ++ Item.group h :: post →
      ∃ pre2, pre = ps.map Item.project ++ pre2 ∧ tail = pre2 ++ Item.group h :: post := by
  induction ps with
  | nil =>
    intro tail pre post h heq
    simp only [List.map_nil, List.nil_append] at heq ⊢
    exact ⟨pre, rfl, heq⟩
  | cons p ps ih =>
    intro tail pre post h heq
    cases pre with
    | nil =>
      simp only [List.map_cons, List.cons_append, List.nil_append] at heq
      injection heq with h1 h2
      exact Item.noConfusion h1
    | cons x pre' =>
      simp only [List.map_cons, List.cons_append] at heq
      injection heq with h1 h2
      obtain ⟨pre2, hp, ht⟩ := ih tail pre' post h h2
      refine ⟨pre2, ?_, ht⟩
      rw [← h1, hp]
      simp

theorem gp_flatMap_group_block (L : List Group) :
    ∀ (pre post : List Item) (h : Group),
      L.flatMap gp_block = pre ++ Item.group h :: post →
      post.take h.projects.length = h.projects.map Item.project := by
  induction L with
  | nil =>
    intro pre post h heq
    have hlen := congrArg List.length heq
    simp only [List.flatMap_nil, List.length_nil, List.length_append, List.length_cons] at hlen
    omega
  | cons a L ih =>
    intro pre post h heq
    rw [List.flatMap_cons, gp_block, List.cons_append] at heq
    cases pre with
    | nil =>
      simp only [List.nil_append] at heq
      injection heq with h1 h2
      injection h1 with h1'
      subst h1'
      rw [← h2]
      have hl : a.projects.length = (a.projects.map Item.project).length :=
        (List.length_map _ _).symm
      rw [hl, List.take_left]
    | cons x pre' =>
      simp only [List.cons_append] at heq
      injection heq with h1 h2
      obtain ⟨pre2, _, ht⟩ := gp_chunk_split a.projects _ _ _ _ h2
      exact ih pre2 post h ht

theorem gp_block_filterMap_project (h : Group) :
    (gp_block h).filterMap Item.projectPart = h.projects := by
  rw [gp_block, List.filterMap_cons]
  simp only [Item.projectPart, List.filterMap_map]
  have hc : (Item.projectPart ∘ Item.project) = some := by
    funext p
    rfl
  rw [hc, List.filterMap_some]

theorem gp_block_filterMap_group (h : Group) :
    (gp_block h).filterMap Item.groupPart = [h] := by
  rw [gp_block, List.filterMap_cons]
  simp only [Item.groupPart, List.filterMap_map]
  have hc : (Item.groupPart ∘ Item.project) = fun _ => none := by
    funext p
    rfl
  rw [hc]
  have hn : ∀ l : List Project, l.filterMap (fun _ => (none : Option Group)) = [] := by
    intro l
    induction l with
    | nil => rfl
    | cons a as ih => rw [List.filterMap_cons]; exact ih
  rw [hn]

theorem flatMap_gp_block_filterMap (L : List Group) :
    (L.flatMap gp_block).filterMap Item.projectPart = L.flatMap (fun h => h.projects) ∧
    (L.flatMap gp_block).filterMap Item.groupPart = L := by
  induction L with
  | nil => simp
  | cons a L ih =>
    simp only [List.flatMap_cons, List.filterMap_append, ih.1, ih.2,
      gp_block_filterMap_project, gp_block_filterMap_group]
    exact ⟨trivial, List.singleton_append⟩

/-! ## Generator state machines -/

theorem walk_gp_def (g : Group) :
    (walk_subgroups g).flatMap gp_block = walk_group_and_projects g := rfl

theorem walk_p_def (g : Group) :
    ((walk_subgroups g).flatMap fun h => h.projects) = walk_projects g := rfl

theorem walk_group_and_projects_cons (i : Nat) (n w : String) (em am : List Member)
    (ps : List Project) (subs : List Group) :
    walk_group_and_projects (Group.mk i n w em am ps subs) =
      Item.group (Group.mk i n w em am ps subs) ::
        (ps.map Item.project ++ subs.flatMap walk_group_and_projects) := by
  rw [walk_group_and_projects, walk_subgroups_cons, List.flatMap_cons, List.flatMap_assoc]
  simp only [walk_gp_def]
  simp only [gp_block, Group.projects, List.cons_append]

theorem walk_projects_cons (i : Nat) (n w : String) (em am : List Member)
    (ps : List Project) (subs : List Group) :
    walk_projects (Group.mk i n w em am ps subs) = ps ++ subs.flatMap walk_projects := by
  rw [walk_projects, walk_subgroups_cons, List.flatMap_cons, List.flatMap_assoc]
  simp only [walk_p_def]
  simp only [Group.projects]

theorem runGen_eq (s : List Group) : runGen s = s.flatMap walk_subgroups := by
  induction s using runGen.induct with
  | case1 => simp [runGen]
  | case2 g rest ih =>
    rcases g with ⟨i, n, w, em, am, ps, subs⟩
    simp only [Group.subgroups] at ih
    rw [runGen]
    simp only [Group.subgroups, ih, List.flatMap_append, List.flatMap_cons, walk_subgroups_cons,
      List.cons_append, List.append_assoc]

theorem expandGP_prj_map (ps : List Project) :
    (ps.map Entry.prj).flatMap expandGP = ps.map Item.project := by
  induction ps with
  | nil => rfl
  | cons p ps ih => simp [expandGP, ih]

theorem expandGP_grp_map (l : List Group) :
    (l.map Entry.grp).flatMap expandGP = l.flatMap walk_group_and_projects := by
  induction l with
  | nil => rfl
  | cons a l ih => simp [expandGP, ih]

theorem expandP_prj_map (ps : List Project) :
    (ps.map Entry.prj).flatMap expandP = ps := by
  induction ps with
  | nil => rfl
  | cons p ps ih => simp [expandP, ih]

theorem expandP_grp_map (l : List Group) :
    (l.map Entry.grp).flatMap expandP = l.flatMap walk_projects := by
  induction l with
  | nil => rfl
  | cons a l ih => simp [expandP, ih]

theorem runGenGP_eq (s : List Entry) : runGenGP s = s.flatMap expandGP := by
  induction s using runGenGP.induct with
  | case1 => simp [runGenGP]
  | case2 p rest ih => simp [runGenGP, ih, expandGP]
  | case3 g rest ih =>
    rcases g with ⟨i, n, w, em, am, ps, subs⟩
    simp only [Group.projects, Group.subgroups] at ih
    rw [runGenGP]
    simp only [Group.projects, Group.subgroups]
    rw [ih]
    simp only [List.flatMap_append, expandGP_prj_map, expandGP_grp_map, List.flatMap_cons,
      expandGP, walk_group_and_projects_cons, List.cons_append, List.append_assoc]

theorem runGenP_eq (s : List Entry) : runGenP s = s.flatMap expandP := by
  induction s using runGenP.induct with
  | case1 => simp [runGenP]
  | case2 p rest ih => simp [runGenP, ih, expandP]
  | case3 g rest ih =>
    rcases g with ⟨i, n, w, em, am, ps, subs⟩
    simp only [Group.projects, Group.subgroups] at ih
    rw [runGenP]
    simp only [Group.projects, Group.subgroups]
    rw [ih]
    simp only [List.flatMap_append, expandP_prj_map, expandP_grp_map, List.flatMap_cons,
      expandP, walk_projects_cons, List.append_assoc]

/-! ## Pre-order path correspondence -/

theorem nodePathsAux_map_nodeAt (i : Nat) (n w : String) (em am : List Member)
    (ps : List Project) (subs : List Group)
    (hIH : ∀ s ∈ subs, (nodePaths s).map (nodeAt s) = (walk_subgroups s).map some) :
    ∀ (k : Nat) (rest : List Group), subs.drop k = rest →
      (nodePathsAux k rest).map (nodeAt (Group.mk i n w em am ps subs)) =
        (walk_subgroups_aux rest).map some := by
  intro k rest
  induction rest generalizing k with
  | nil => intro _; rfl
  | cons s rest' ih =>
    intro hdrop
    have hks : subs[k]? = some s := by
      have h0 : (subs.drop k)[0]? = subs[k + 0]? := List.getElem?_drop subs k 0
      rw [hdrop] at h0
      simpa using h0.symm
    have hdrop' : subs.drop (k + 1) = rest' := by
      rw [← List.tail_drop, hdrop]
      rfl
    have hmem : s ∈ subs := List.drop_subset k subs (by
      rw [hdrop]
      exact List.mem_cons_self s rest')
    rw [nodePathsAux, walk_subgroups_aux]
    simp only [List.map_append, List.map_map]
    have hfun : (nodeAt (Group.mk i n w em am ps subs)) ∘ (fun p => k :: p) = nodeAt s := by
      funext p
      simp only [Function.comp_apply, nodeAt, Group.subgroups, hks]
    rw [hfun, hIH s hmem, ih (k + 1) hdrop']

theorem nodePaths_map_nodeAt (g : Group) :
    (nodePaths g).map (nodeAt g) = (walk_subgroups g).map some := by
  induction g using Group.recMem with
  | ind i n w em am ps subs ih =>
    rw [nodePaths, walk_subgroups]
    simp only [List.map_cons]
    rw [nodePathsAux_map_nodeAt i n w em am ps subs ih 0 subs (by simp)]
    rfl

theorem nodePathsAux_mem (l : List Group) :
    ∀ (k j : Nat) (s : Group) (p : List Nat), l[j]? = some s → p ∈ nodePaths s →
      (k + j) :: p ∈ nodePathsAux k l := by
  induction l with
  | nil => intro k j s p hj _; simp at hj
  | cons a l ih =>
    intro k j s p hj hp
    cases j with
    | zero =>
      simp only [List.getElem?_cons_zero, Option.some.injEq] at hj
      subst hj
      rw [nodePathsAux]
      refine List.mem_append.mpr (Or.inl ?_)
      simp only [Nat.add_zero]
      exact List.mem_map.mpr ⟨p, hp, rfl⟩
    | succ j' =>
      rw [nodePathsAux]
      refine List.mem_append.mpr (Or.inr ?_)
      have hmem := ih (k + 1) j' s p (by simpa using hj) hp
      have harith : k + (j' + 1) = (k + 1) + j' := by omega
      rw [harith]
      exact hmem

theorem nodeAt_mem_nodePaths (g : Group) :
    ∀ p : List Nat, (nodeAt g p).isSome = true → p ∈ nodePaths g := by
  induction g using Group.recMem with
  | ind i n w em am ps subs ih =>
    intro p hp
    cases p with
    | nil =>
      rw [nodePaths]
      exact List.mem_cons_self _ _
    | cons k p' =>
      rw [nodePaths]
      refine List.mem_cons_of_mem _ ?_
      simp only [nodeAt, Group.subgroups] at hp
      split at hp
      case _ s heq =>
        have hmem : s ∈ subs := by
          obtain ⟨hlt, hgs⟩ := List.getElem?_eq_some.mp heq
          rw [← hgs]
          exact List.getElem_mem hlt
        have hp' := ih s hmem p' hp
        have := nodePathsAux_mem subs 0 k s p' heq hp'
        simpa using this
      case _ heq =>
        simp at hp

theorem nodePathsAux_head_ge (l : List Group) :
    ∀ (k : Nat) (q : List Nat), q ∈ nodePathsAux k l → ∃ j p, q = j :: p ∧ k ≤ j := by
  induction l with
  | nil => intro k q hq; simp [nodePathsAux] at hq
  | cons a l ih =>
    intro k q hq
    rw [nodePathsAux] at hq
    rcases List.mem_append.mp hq with h | h
    · obtain ⟨p, _, rfl⟩ := List.mem_map.mp h
      exact ⟨k, p, rfl, le_refl k⟩
    · obtain ⟨j, p, rfl, hj⟩ := ih (k + 1) q h
      exact ⟨j, p, rfl, by omega⟩

theorem nodePathsAux_pairwise (l : List Group) :
    ∀ k : Nat, (∀ s ∈ l, (nodePaths s).Pairwise (fun p q => ¬ ∃ r, q ++ r = p)) →
      (nodePathsAux k l).Pairwise (fun p q => ¬ ∃ r, q ++ r = p) := by
  induction l with
  | nil => intro k _; rw [nodePathsAux]; exact List.Pairwise.nil
  | cons a l ih =>
    intro k hs
    rw [nodePathsAux]
    refine List.pairwise_append.mpr ⟨?_, ?_, ?_⟩
    · refine List.pairwise_map.mpr ?_
      refine (hs a (List.mem_cons_self a l)).imp ?_
      intro p q hnp
      rintro ⟨r, hr⟩
      simp only [List.cons_append, List.cons.injEq] at hr
      exact hnp ⟨r, hr.2⟩
    · exact ih (k + 1) (fun s hsl => hs s (List.mem_cons_of_mem a hsl))
    · intro x hx y hy
      obtain ⟨p, _, rfl⟩ := List.mem_map.mp hx
      obtain ⟨j, q, rfl, hj⟩ := nodePathsAux_head_ge l (k + 1) y hy
      rintro ⟨r, hr⟩
      simp only [List.cons_append, List.cons.injEq] at hr
      omega

theorem nodePaths_pairwise (g : Group) :
    (nodePaths g).Pairwise (fun p q => ¬ ∃ r, q ++ r = p) := by
  induction g using Group.recMem with
  | ind i n w em am ps subs ih =>
    rw [nodePaths]
    refine List.pairwise_cons.mpr ⟨?_, nodePathsAux_pairwise subs 0 ih⟩
    intro q hq
    obtain ⟨j, p, rfl, _⟩ := nodePathsAux_head_ge subs 0 q hq
    rintro ⟨r, hr⟩
    simp at hr

/-! ## String comparison is a total preorder -/

theorem charListLe_total (a : List Char) :
    ∀ b : List Char, (charListLe a b || charListLe b a) = true := by
  induction a with
  | nil => intro b; rw [charListLe]; simp
  | cons x xs ih =>
    intro b
    cases b with
    | nil =>
      rw [charListLe]
      simp [charListLe]
    | cons y ys =>
      rw [charListLe, charListLe]
      by_cases h1 : x.toNat < y.toNat
      · rw [if_pos h1]
        simp
      · by_cases h2 : y.toNat < x.toNat
        · rw [if_neg h1, if_pos h2, if_pos h2]
          simp
        · rw [if_neg h1, if_neg h2, if_neg h2, if_neg h1]
          exact ih ys

theorem charListLe_trans (a : List Char) :
    ∀ b c : List Char, charListLe a b = true → charListLe b c = true →
      charListLe a c = true := by
  induction a with
  | nil => intro b c _ _; rw [charListLe]
  | cons x xs ih =>
    intro b c hab hbc
    cases b with
    | nil =>
      rw [charListLe] at hab
      exact absurd hab (by simp)
    | cons y ys =>
      cases c with
      | nil =>
        rw [charListLe] at hbc
        exact absurd hbc (by simp)
      | cons z zs =>
        rw [charListLe] at hab hbc ⊢
        by_cases hxy : x.toNat < y.toNat
        · by_cases hyz : y.toNat < z.toNat
          · rw [if_pos (by omega)]
          · by_cases hzy : z.toNat < y.toNat
            · rw [if_neg hyz, if_pos hzy] at hbc
              exact absurd hbc (by simp)
            · rw [if_pos (by omega)]
        · by_cases hyx : y.toNat < x.toNat
          · rw [if_pos hyx] at hab
            rw [if_neg hxy] at hab
            exact absurd hab (by simp)
          · rw [if_neg hxy, if_neg hyx] at hab
            by_cases hyz : y.toNat < z.toNat
            · rw [if_pos (by omega)]
            · by_cases hzy : z.toNat < y.toNat
              · rw [if_neg hyz, if_pos hzy] at hbc
                exact absurd hbc (by simp)
              · rw [if_neg hyz, if_neg hzy] at hbc
                rw [if_neg (by omega), if_neg (by omega)]
                exact ih ys zs hab hbc

theorem strLe_trans (a b c : String) (hab : strLe a b = true) (hbc : strLe b c = true) :
    strLe a c = true :=
  charListLe_trans a.data b.data c.data hab hbc

theorem strLe_total (a b : String) : (strLe a b || strLe b a) = true :=
  charListLe_total a.data b.data

/-! ## Sorting lemmas -/

theorem insertSorted_perm {α : Type} (le : α → α → Bool) (x : α) (l : List α) :
    (insertSorted le x l).Perm (x :: l) := by
  induction l with
  | nil => exact List.Perm.refl _
  | cons y ys ih =>
    rw [insertSorted]
    by_cases h : le x y
    · rw [if_pos h]
    · rw [if_neg h]
      exact (ih.cons y).trans (List.Perm.swap x y ys)

theorem insertionSort_perm {α : Type} (le : α → α → Bool) (l : List α) :
    (insertionSort le l).Perm l := by
  induction l with
  | nil => exact List.Perm.refl _
  | cons x xs ih =>
    rw [insertionSort]
    exact (insertSorted_perm le x (insertionSort le xs)).trans (ih.cons x)

theorem insertSorted_pairwise {α : Type} (le : α → α → Bool)
    (htrans : ∀ a b c, le a b = true → le b c = true → le a c = true)
    (htotal : ∀ a b, (le a b || le b a) = true)
    (x : α) (l : List α) (hl : l.Pairwise (fun a b => le a b = true)) :
    (insertSorted le x l).Pairwise (fun a b => le a b = true) := by
  induction l with
  | nil => simp [insertSorted]
  | cons y ys ih =>
    obtain ⟨hy, hys⟩ := List.pairwise_cons.mp hl
    rw [insertSorted]
    by_cases h : le x y
    · rw [if_pos h]
      refine List.pairwise_cons.mpr ⟨?_, hl⟩
      intro z hz
      rcases List.mem_cons.mp hz with hz | hz
      · subst hz; exact h
      · exact htrans x y z h (hy z hz)
    · rw [if_neg h]
      refine List.pairwise_cons.mpr ⟨?_, ih hys⟩
      intro z hz
      have hz' : z ∈ x :: ys := (insertSorted_perm le x ys).mem_iff.mp hz
      rcases List.mem_cons.mp hz' with hz' | hz'
      · rw [hz']
        have htot := htotal x y
        rw [Bool.or_eq_true] at htot
        rcases htot with h1 | h1
        · exact absurd h1 h
        · exact h1
      · exact hy z hz'

theorem insertionSort_pairwise {α : Type} (le : α → α → Bool)
    (htrans : ∀ a b c, le a b = true → le b c = true → le a c = true)
    (htotal : ∀ a b, (le a b || le b a) = true)
    (l : List α) :
    (insertionSort le l).Pairwise (fun a b => le a b = true) := by
  induction l with
  | nil => simp [insertionSort]
  | cons x xs ih =>
    rw [insertionSort]
    exact insertSorted_pairwise le htrans htotal x _ ih

theorem sort_members_perm (l : List Member) : (sort_members l).Perm l :=
  insertionSort_perm _ l

theorem sort_members_sorted (l : List Member) :
    (sort_members l).Pairwise (fun a b => strLe a.name b.name = true) :=
  insertionSort_pairwise _
    (fun a b c hab hbc => strLe_trans a.name b.name c.name hab hbc)
    (fun a b => strLe_total a.name b.name) l

theorem sort_members_eq_nil_iff (l : List Member) : sort_members l = [] ↔ l = [] := by
  constructor
  · intro h
    have hp := sort_members_perm l
    rw [h] at hp
    exact (hp.symm).eq_nil
  · intro h
    subst h
    exact (sort_members_perm []).eq_nil

theorem member_keys_sorted (g : Group) :
    (member_keys g).Pairwise (fun a b => strLe a b = true) :=
  insertionSort_pairwise strLe strLe_trans strLe_total _

theorem member_keys_nodup (g : Group) : (member_keys g).Nodup :=
  (insertionSort_perm strLe _).symm.nodup (List.nodup_dedup _)

theorem member_keys_mem (g : Group) (k : String) :
    k ∈ member_keys g ↔ k ∈ (member_entries g).map Prod.fst := by
  rw [member_keys, (insertionSort_perm strLe _).mem_iff, List.mem_dedup]

/-! ## Member-section lemmas -/

theorem walk_members_section_marker (oe : Bool) (it : Item)
    (h : it.explicit_members = []) :
    (walk_members_section oe it).explicitPart = ExplicitPart.noExplicitMembersMarker := by
  have hempty : (sort_members it.explicit_members).isEmpty = true := by
    rw [List.isEmpty_iff, sort_members_eq_nil_iff]
    exact h
  simp [walk_members_section, hempty]

theorem walk_members_section_table (oe : Bool) (it : Item)
    (h : it.explicit_members ≠ []) :
    ∃ rows, rows ≠ [] ∧ (walk_members_section oe it).explicitPart = ExplicitPart.table rows := by
  have hne : (sort_members it.explicit_members).isEmpty = false := by
    rw [Bool.eq_false_iff]
    intro hcon
    rw [List.isEmpty_iff, sort_members_eq_nil_iff] at hcon
    exact h hcon
  refine ⟨(sort_members it.explicit_members).map member_row, ?_, ?_⟩
  · intro hcon
    have hlen := congrArg List.length hcon
    rw [List.length_map, (sort_members_perm _).length_eq] at hlen
    simp only [List.length_nil] at hlen
    exact h (List.eq_nil_of_length_eq_zero hlen)
  · simp [walk_members_section, hne]

theorem walk_members_section_rows_perm (oe : Bool) (it : Item) :
    (explicit_rows (walk_members_section oe it).explicitPart).Perm
      (it.explicit_members.map member_row) := by
  by_cases h0 : it.explicit_members = []
  · rw [walk_members_section_marker oe it h0, h0]
    simp [explicit_rows]
  · have hne : (sort_members it.explicit_members).isEmpty = false := by
      rw [Bool.eq_false_iff]
      intro hcon
      rw [List.isEmpty_iff, sort_members_eq_nil_iff] at hcon
      exact h0 hcon
    simp only [walk_members_section, hne, Bool.false_eq_true, if_false, explicit_rows]
    exact (sort_members_perm it.explicit_members).map member_row

/-! ## Aggregation command lemmas -/

theorem walk_members_length (g : Group) (oe : Bool) :
    (walk_members g oe).length = count_groups g + count_projects g := by
  rw [walk_members, List.length_map, walk_group_and_projects_length]

theorem walk_members_mem (g : Group) (oe : Bool) (s : MemberSection)
    (h : s ∈ walk_members g oe) :
    ∃ it ∈ walk_group_and_projects g, s = walk_members_section oe it := by
  rw [walk_members] at h
  obtain ⟨it, hit, heq⟩ := List.mem_map.mp h
  exact ⟨it, hit, heq.symm⟩

theorem walk_members_section_ne_empty_table (oe : Bool) (it : Item) :
    (walk_members_section oe it).explicitPart ≠ ExplicitPart.table [] := by
  by_cases h0 : it.explicit_members = []
  · rw [walk_members_section_marker oe it h0]
    intro hcon
    exact ExplicitPart.noConfusion hcon
  · obtain ⟨rows, hne, heq⟩ := walk_members_section_table oe it h0
    rw [heq]
    intro hcon
    injection hcon with h1
    exact hne h1

theorem walk_project_members_length (g : Group) (oe : Bool) :
    (walk_project_members g oe).length = count_projects g := by
  rw [walk_project_members, List.length_map, walk_projects_length]

theorem walk_project_members_mem (g : Group) (oe : Bool) (s : MemberSection)
    (h : s ∈ walk_project_members g oe) :
    ∃ p ∈ walk_projects g, s = walk_project_members_section oe p := by
  rw [walk_project_members] at h
  obtain ⟨p, hp, heq⟩ := List.mem_map.mp h
  exact ⟨p, hp, heq.symm⟩

theorem walk_project_members_section_rows_perm (oe : Bool) (p : Project) :
    (explicit_rows ((walk_project_members_section oe p).explicitPart)).Perm
      (explicit_rows ((walk_members_section oe (Item.project p)).explicitPart)) := by
  have h1 : explicit_rows ((walk_project_members_section oe p).explicitPart)
      = p.explicit_members.map member_row := rfl
  have h2 := walk_members_section_rows_perm oe (Item.project p)
  have h3 : (Item.project p).explicit_members = p.explicit_members := rfl
  rw [h3] at h2
  rw [h1]
  exact h2.symm

theorem walk_project_per_member_rows_eq (g : Group) (k : String)
    (rows : List (String × String)) (h : (k, rows) ∈ walk_project_per_member g) :
    rows = member_index_rows g k := by
  rw [walk_project_per_member] at h
  obtain ⟨k', _, heq⟩ := List.mem_map.mp h
  rw [Prod.mk.injEq] at heq
  obtain ⟨h1, h2⟩ := heq
  subst h1
  exact h2.symm

theorem member_index_rows_spec (g : Group) (k : String) :
    ∃ items : List Item, items.Perm (member_index g k) ∧
      items.Pairwise (fun a b => strLe a.name b.name = true) ∧
      member_index_rows g k = items.map
        (fun it => ("  " ++ it.name, it.web_url ++ "/-/group_members")) := by
  refine ⟨insertionSort (fun a b => strLe a.name b.name) (member_index g k),
    insertionSort_perm _ _, ?_, rfl⟩
  exact insertionSort_pairwise _
    (fun a b c hab hbc => strLe_trans a.name b.name c.name hab hbc)
    (fun a b => strLe_total a.name b.name) _

theorem member_entries_mem (g : Group) (it : Item) (m : Member)
    (hit : it ∈ walk_group_and_projects g) (hm : m ∈ it.explicit_members) :
    (member_key m, it) ∈ member_entries g := by
  rw [member_entries]
  exact List.mem_flatMap.mpr ⟨it, hit, List.mem_map.mpr ⟨m, hm, rfl⟩⟩

/-! ## Claims -/

/-- C1: For every group tree, walk_subgroups yields the root first; its
yields correspond one-to-one, in order, with the pre-order list of
root-to-node paths (so every reachable group is yielded exactly once per
reachable path, and every reachable path is covered); and in that path
list no later path is a prefix of an earlier one, so a node is never
yielded before any of its ancestors (pre-order, depth-first). -/
theorem claim_walk_subgroups_preorder (g : Group) :
    (walk_subgroups g).head? = some g ∧
    (nodePaths g).map (nodeAt g) = (walk_subgroups g).map some ∧
    (∀ p : List Nat, (nodeAt g p).isSome = true → p ∈ nodePaths g) ∧
    (nodePaths g).Pairwise (fun p q => ¬ ∃ r, q ++ r = p) :=
  ⟨walk_subgroups_head g, nodePaths_map_nodeAt g, nodeAt_mem_nodePaths g,
   nodePaths_pairwise g⟩

/-- Witness for C1: at the demo tree, the reachable position [0] is listed
among the pre-order paths, and the demo root is yielded first. -/
theorem claim_walk_subgroups_preorder_witness :
    [0] ∈ nodePaths gDemo ∧ (walk_subgroups gDemo).head? = some gDemo :=
  ⟨(claim_walk_subgroups_preorder gDemo).2.2.1 [0] (by decide),
   (claim_walk_subgroups_preorder gDemo).1⟩

/-- C2: the inverted index keys members by "name (username)"; after the
walk it emits one row group per distinct member key, keys sorted, and
within each member the accumulated items sorted by name, each row carrying
the item's members_web_url navigation target; on the concrete instance
with P1 (Alice, Bob) and P2 (Bob) it maps Alice to [P1] and Bob to
[P1, P2]. -/
theorem claim_member_index :
    (∀ g : Group,
      (member_keys g).Pairwise (fun a b => strLe a b = true) ∧
      (member_keys g).Nodup ∧
      (∀ k, k ∈ member_keys g ↔ k ∈ (member_entries g).map Prod.fst) ∧
      (∀ k rows, (k, rows) ∈ walk_project_per_member g →
        ∃ items : List Item, items.Perm (member_index g k) ∧
          items.Pairwise (fun a b => strLe a.name b.name = true) ∧
          rows = items.map
            (fun it => ("  " ++ it.name, it.web_url ++ "/-/group_members")))) ∧
    walk_project_per_member gC2 =
      [("Alice (alice)", [("  P1", "https://ex/P1/-/group_members")]),
       ("Bob (bob)", [("  P1", "https://ex/P1/-/group_members"),
                      ("  P2", "https://ex/P2/-/group_members")])] := by
  constructor
  · intro g
    refine ⟨member_keys_sorted g, member_keys_nodup g, member_keys_mem g, ?_⟩
    intro k rows hmem
    obtain ⟨items, hperm, hsorted, heq⟩ := member_index_rows_spec g k
    exact ⟨items, hperm, hsorted, by rw [walk_project_per_member_rows_eq g k rows hmem, heq]⟩
  · decide

/-- Witness for C2: the row group of Bob in the concrete P1/P2 instance is
the name-sorted rendering of Bob's accumulated projects. -/
theorem claim_member_index_witness :
    ∃ items : List Item, items.Perm (member_index gC2 "Bob (bob)") ∧
      items.Pairwise (fun a b => strLe a.name b.name = true) ∧
      [("  P1", "https://ex/P1/-/group_members"),
       ("  P2", "https://ex/P2/-/group_members")] = items.map
        (fun it => ("  " ++ it.name, it.web_url ++ "/-/group_members")) :=
  (claim_member_index.1 gC2).2.2.2 "Bob (bob)"
    [("  P1", "https://ex/P1/-/group_members"),
     ("  P2", "https://ex/P2/-/group_members")] (by decide)

/-- Counterexample to C3: walk_project_members requests explicit members,
yet for the project with zero explicit members it emits an empty explicit
table, which is not the marker — so the marker-instead-of-empty-table
behavior does not hold for every command that requests explicit members. -/
theorem claim_no_explicit_marker_counterexample :
    (walk_project_members gC3 true).map MemberSection.explicitPart
      = [ExplicitPart.table []] ∧
    ExplicitPart.table [] ≠ ExplicitPart.noExplicitMembersMarker := by decide

/-- C3 amended: in walk_members, an item with an empty explicit listing
yields the distinct marker and an empty explicit table is never emitted;
walk_project_members, however, always emits the explicit table, which is
empty exactly when the project has no explicit members. -/
theorem claim_no_explicit_marker_amended (g : Group) (oe : Bool) :
    (∀ s ∈ walk_members g oe, s.explicitPart ≠ ExplicitPart.table []) ∧
    (∀ it ∈ walk_group_and_projects g, it.explicit_members = [] →
      (walk_members_section oe it).explicitPart = ExplicitPart.noExplicitMembersMarker) ∧
    (∀ p ∈ walk_projects g, p.explicit_members = [] →
      (walk_project_members_section oe p).explicitPart = ExplicitPart.table []) := by
  refine ⟨?_, ?_, ?_⟩
  · intro s hs
    obtain ⟨it, _, rfl⟩ := walk_members_mem g oe s hs
    exact walk_members_section_ne_empty_table oe it
  · intro it _ h
    exact walk_members_section_marker oe it h
  · intro p _ h
    simp [walk_project_members_section, h]

/-- Witness for C3 amended: at the concrete tree gC3 the project section
shows the marker in walk_members and the empty table in
walk_project_members, and the group section is not an empty table. -/
theorem claim_no_explicit_marker_amended_witness :
    MemberSection.explicitPart ⟨30, "G3", ExplicitPart.noExplicitMembersMarker, none⟩
        ≠ ExplicitPart.table [] ∧
    (walk_members_section true (Item.project pEmpty)).explicitPart
        = ExplicitPart.noExplicitMembersMarker ∧
    (walk_project_members_section true pEmpty).explicitPart = ExplicitPart.table [] :=
  ⟨(claim_no_explicit_marker_amended gC3 true).1
      ⟨30, "G3", ExplicitPart.noExplicitMembersMarker, none⟩ (by decide),
   (claim_no_explicit_marker_amended gC3 true).2.1 (Item.project pEmpty) (by decide) (by decide),
   (claim_no_explicit_marker_amended gC3 true).2.2 pEmpty (by decide) (by decide)⟩

/-- Counterexample to C4: the root group of gC4 owns no project at all
(walk_projects is empty), yet its own explicit member Carol is resolved
and contributes rows to both walk_members and walk_project_per_member —
so member resolution is not performed only for project items. -/
theorem claim_members_only_for_projects_counterexample :
    walk_members gC4 true = [⟨40, "G4", ExplicitPart.table [(3, "Carol")], none⟩] ∧
    walk_project_per_member gC4
      = [("Carol (carol)", [("  G4", "https://ex/G4/-/group_members")])] ∧
    walk_projects gC4 = [] := by decide

/-- C4 amended: in walk_members and walk_project_per_member the member
resolution runs for every item of walk_group_and_projects, group nodes
included: walk_members emits one section per item (groups plus projects),
each section's explicit rows come from that item's explicit listing, and
every explicit member of every item — also of a group — enters the
inverted index's accumulation. -/
theorem claim_member_resolution_every_item (g : Group) (oe : Bool) :
    (walk_members g oe).length = count_groups g + count_projects g ∧
    (∀ s ∈ walk_members g oe, ∃ it ∈ walk_group_and_projects g,
      s.header_id = it.id ∧ s.header_name = it.name ∧
      (explicit_rows s.explicitPart).Perm (it.explicit_members.map member_row)) ∧
    (∀ it ∈ walk_group_and_projects g, ∀ m ∈ it.explicit_members,
      (member_key m, it) ∈ member_entries g) := by
  refine ⟨walk_members_length g oe, ?_, ?_⟩
  · intro s hs
    obtain ⟨it, hit, rfl⟩ := walk_members_mem g oe s hs
    exact ⟨it, hit, rfl, rfl, walk_members_section_rows_perm oe it⟩
  · intro it hit m hm
    exact member_entries_mem g it m hit hm

/-- Witness for C4 amended: Carol, explicit member of the group node gC4
itself, enters the inverted index's accumulation. -/
theorem claim_member_resolution_every_item_witness :
    (member_key mCarol, Item.group gC4) ∈ member_entries gC4 :=
  (claim_member_resolution_every_item gC4 true).2.2 (Item.group gC4) (by decide)
    mCarol (by decide)

/-- C5: walk_group_and_projects emits exactly (number of reachable
groups) + (number of directly owned projects across them) items, and
wherever a group item occurs, the items immediately following it are
exactly that group's directly owned projects, in order. -/
theorem claim_walk_group_and_projects_interleaving (g : Group) :
    (walk_group_and_projects g).length = count_groups g + count_projects g ∧
    ∀ (pre : List Item) (h : Group) (post : List Item),
      walk_group_and_projects g = pre ++ Item.group h :: post →
        post.take h.projects.length = h.projects.map Item.project := by
  refine ⟨walk_group_and_projects_length g, ?_⟩
  intro pre h post heq
  refine gp_flatMap_group_block (walk_subgroups g) pre post h ?_
  rw [walk_gp_def]
  exact heq

/-- Witness for C5: in the demo tree, the child group's item is
immediately followed by exactly its one project. -/
theorem claim_walk_group_and_projects_interleaving_witness :
    [Item.project pEmpty, Item.group gDemoLeaf, Item.group gDemoChild2].take
        gDemoChild.projects.length = gDemoChild.projects.map Item.project :=
  (claim_walk_group_and_projects_interleaving gDemo).2
    [Item.group gDemo, Item.project pOne, Item.project pTwo] gDemoChild
    [Item.project pEmpty, Item.group gDemoLeaf, Item.group gDemoChild2] (by decide)

/-- Counterexample to C6: for the project whose server listing is
unsorted, walk_project_members emits the rows in server order ("b" before
"a") while walk_members sorts them — the two member resolutions are not
identical, and walk_project_members does not sort by display name. -/
theorem claim_project_members_identical_counterexample :
    (walk_project_members gC6 true).map MemberSection.explicitPart
      = [ExplicitPart.table [(5, "b"), (4, "a")]] ∧
    (walk_members_section true (Item.project pUnsorted)).explicitPart
      = ExplicitPart.table [(4, "a"), (5, "b")] ∧
    walk_project_members_section true pUnsorted
      ≠ walk_members_section true (Item.project pUnsorted) := by decide

/-- C6 amended: walk_project_members iterates walkProjects only, so
groups never appear as rows; it fetches the same explicit listing as
walk_members does for the same project (equal rows up to order), but it
emits the listing unsorted as a table, with no sorting and no
empty-listing marker. -/
theorem claim_project_members_spec (g : Group) (oe : Bool) :
    (walk_project_members g oe).length = count_projects g ∧
    (∀ s ∈ walk_project_members g oe, ∃ p ∈ walk_projects g,
      s.header_id = p.id ∧ s.header_name = p.name ∧
      s.explicitPart = ExplicitPart.table (p.explicit_members.map member_row)) ∧
    (∀ p ∈ walk_projects g,
      (explicit_rows ((walk_project_members_section oe p).explicitPart)).Perm
        (explicit_rows ((walk_members_section oe (Item.project p)).explicitPart))) := by
  refine ⟨walk_project_members_length g oe, ?_, ?_⟩
  · intro s hs
    obtain ⟨p, hp, rfl⟩ := walk_project_members_mem g oe s hs
    exact ⟨p, hp, rfl, rfl, rfl⟩
  · intro p _
    exact walk_project_members_section_rows_perm oe p

/-- Witness for C6 amended: at the unsorted project the rows emitted by
walk_project_members are a permutation of the sorted rows walk_members
emits. -/
theorem claim_project_members_spec_witness :
    (explicit_rows ((walk_project_members_section true pUnsorted).explicitPart)).Perm
      (explicit_rows ((walk_members_section true (Item.project pUnsorted)).explicitPart)) :=
  (claim_project_members_spec gC6 true).2.2 pUnsorted (by decide)

/-- C7: when no successful job carries the requested name, the search
fails with the not-found error and the command performs no file write. -/
theorem claim_download_artifacts_not_found (jobs : List Job) (job_name : String)
    (h : ∀ j ∈ jobs, j.status = "success" → j.name ≠ job_name) :
    download_artifacts jobs job_name = (Except.error GitlabError.notFound, []) := by
  rw [download_artifacts]
  have hnone : (successful_jobs jobs).find? (fun j => j.name == job_name) = none := by
    rw [List.find?_eq_none]
    intro j hj
    rw [successful_jobs, List.mem_filter] at hj
    obtain ⟨hjmem, hjst⟩ := hj
    have hst : j.status = "success" := by simpa using hjst
    have hname := h j hjmem hst
    simp [hname]
  rw [hnone]

/-- Witness for C7: a backing job list with a failed "build" job and a
successful "test" job has no successful "build" job, so the download of
"build" artifacts errors with not-found and writes nothing. -/
theorem claim_download_artifacts_not_found_witness :
    download_artifacts [⟨"build", "failed", [1]⟩, ⟨"test", "success", [2]⟩] "build"
      = (Except.error GitlabError.notFound, []) :=
  claim_download_artifacts_not_found
    [⟨"build", "failed", [1]⟩, ⟨"test", "success", [2]⟩] "build" (by decide)

/-- C8: with --group-id missing, the group callback — which click runs
before every group subcommand — fails with the usage error and the fetch
counter stays at zero, whatever the fetch backend: no group fetch, hence
no traversal, begins. -/
theorem claim_group_missing_id_usage_error (fetchGroup : String → Option Group) :
    group_command fetchGroup none =
      (Except.error (CommandError.usage
        "You must provide a group id, run the groups command to find one"), 0) := rfl

/-- C9: each of the three walks, run as a generator from its fresh
initial pending stack, produces exactly the pure function of the backing
tree — so two invocations of the same walk against the unchanged tree
start from the same fresh state and yield value-equal sequences, with no
cursor state carried from one run into the next. -/
theorem claim_walks_restartable (g : Group) :
    runGen [g] = walk_subgroups g ∧
    runGenP [Entry.grp g] = walk_projects g ∧
    runGenGP [Entry.grp g] = walk_group_and_projects g := by
  refine ⟨?_, ?_, ?_⟩
  · rw [runGen_eq]
    simp
  · rw [runGenP_eq]
    simp [expandP]
  · rw [runGenGP_eq]
    simp [expandGP]

/-- C10: walk_projects is exactly the project subsequence of
walk_group_and_projects, and erasing the projects from
walk_group_and_projects leaves exactly walk_subgroups: the two walks
differ only in whether each group node is also yielded. -/
theorem claim_walk_projects_refinement (g : Group) :
    walk_projects g = (walk_group_and_projects g).filterMap Item.projectPart ∧
    (walk_group_and_projects g).filterMap Item.groupPart = walk_subgroups g := by
  have h := flatMap_gp_block_filterMap (walk_subgroups g)
  constructor
  · rw [walk_projects, walk_group_and_projects]
    exact h.1.symm
  · rw [walk_group_and_projects]
    exact h.2

end ClkGitlab
